import Mathlib

/-!
Verification of the graphite-cli stack/submit core against its
natural-language specification.

The development shallowly embeds the relevant TypeScript sources:
  * `src/actions/submit/prepare_branches.ts` (PR reconciliation engine)
  * `src/actions/commit_amend.ts` and the unnamed commit-create action
  * `src/wrapper-classes/abstract_stack_builder.ts` (stack builder)
External collaborators (metadata cache reads, prompts, title/body
gathering) are modelled as explicit inputs; effectful steps are modelled
as explicit traces / write logs so that frame properties are provable.
-/

/-! ## PR reconciliation: statuses and the pure classification

Embeds the `calculatedStatus` conditional chain of `getPRAction` in
`prepare_branches.ts`.  TypeScript `prInfo?.number : number | undefined`
becomes `Option Nat`, `prInfo?.base : string | undefined` becomes
`Option String`, `prInfo.isDraft : boolean | undefined` becomes
`Option Bool`. -/

inductive PRStatus where
  | NOOP
  | CREATE
  | RESTACK
  | CHANGE
  | DRAFT
  | PUBLISH
deriving DecidableEq, Repr

/-- Embedding of the `calculatedStatus` expression of `getPRAction`
(`prepare_branches.ts`): a chain of conditionals over the branch's
stored PR number, the `updateOnly` flag, the stored PR base versus the
actual parent name, whether the local branch matches the remote, and the
requested draft/publish flags versus the stored draft flag. -/
def calculatedStatus (prNumber : Option Nat) (updateOnly : Bool)
    (prBase : Option String) (parentBranchName : String)
    (matchesRemote : Bool) (draft : Bool) (publish : Bool)
    (isDraft : Option Bool) : PRStatus :=
  match prNumber with
  | none => if updateOnly then .NOOP else .CREATE
  | some _ =>
    if prBase ≠ some parentBranchName then .RESTACK
    else if !matchesRemote then .CHANGE
    else if draft && !(isDraft == some true) then .DRAFT
    else if publish && !(isDraft == some false) then .PUBLISH
    else .NOOP

/-- Modelled from the spec (section 4.4 table): the reconciliation action
as a pure function of the five table inputs (`hasKnownReviewNumber`,
`updateOnly`, `storedBase == actualParentName`, `localContentMatchesRemote`,
requested draft/publish versus the stored draft flag).  This definition is
written from the spec's words, to be compared with `calculatedStatus`
which is embedded from the source. -/
def specTableAction (hasKnownNumber : Bool) (updateOnly : Bool)
    (baseMatches : Bool) (contentMatches : Bool)
    (draftRequested : Bool) (publishRequested : Bool)
    (storedIsDraft : Option Bool) : PRStatus :=
  if !hasKnownNumber then
    if updateOnly then .NOOP else .CREATE
  else if !baseMatches then .RESTACK
  else if !contentMatches then .CHANGE
  else if draftRequested && !(storedIsDraft == some true) then .DRAFT
  else if publishRequested && !(storedIsDraft == some false) then .PUBLISH
  else .NOOP

/-- C1: the action computed by `getPRAction` is a pure function of the five
table inputs and agrees with the spec's section 4.4 table on every input. -/
theorem c1_calculatedStatus_eq_specTable (prNumber : Option Nat)
    (updateOnly : Bool) (prBase : Option String) (parentBranchName : String)
    (matchesRemote : Bool) (draft : Bool) (publish : Bool)
    (isDraft : Option Bool) :
    calculatedStatus prNumber updateOnly prBase parentBranchName
        matchesRemote draft publish isDraft =
      specTableAction prNumber.isSome updateOnly
        (prBase == some parentBranchName) matchesRemote
        draft publish isDraft := by
  cases prNumber <;>
    simp only [calculatedStatus, specTableAction, Option.isSome] <;>
    rcases prBase with _ | s <;>
    simp_all [beq_iff_eq]

/-! ## Submit pipeline context and data

The metadata cache reads, the interactive prompt, and the title/body/
reviewer/draft gathering helpers (`pr_title.ts`, `pr_body.ts`,
`reviewers.ts`, `pr_draft.ts`) are external collaborators of
`prepare_branches.ts`; they are modelled as fields of `SubmitCtx`,
deterministic per branch name within one run.  Steps that can fail
(prompts cancelled, helpers throwing) are `Except Unit`-valued. -/

structure TBranchPRInfo where
  title : Option String := none
  body : Option String := none
deriving DecidableEq, Repr

structure SubmitCtx where
  /-- `context.metaCache.getParentPrecondition` (assumed to succeed; the
  pipeline only receives branches with a valid parent). -/
  getParent : String → String
  /-- `context.metaCache.getPrInfo(b)?.number`. -/
  getPrNumber : String → Option Nat
  /-- `context.metaCache.getPrInfo(b)?.base`. -/
  getPrBase : String → Option String
  /-- `context.metaCache.getPrInfo(b)?.isDraft`. -/
  getPrIsDraft : String → Option Bool
  /-- `context.metaCache.branchMatchesRemote`. -/
  branchMatchesRemote : String → Bool
  /-- `context.metaCache.getRevision`. -/
  getRevision : String → String
  /-- Result of the `selectBranch` confirmation prompt, were it invoked
  for this branch. -/
  userSelects : String → Bool
  /-- `getPRTitle` from `pr_title.ts` (may throw, e.g. prompt aborted). -/
  prTitle : String → Except Unit String
  /-- `getPRBody` from `pr_body.ts` (may throw). -/
  prBody : String → Except Unit String
  /-- `getReviewers` from `reviewers.ts`, given the `fetchReviewers` flag. -/
  getReviewersF : Bool → Except Unit (List String)
  /-- `getPRDraftStatus` from `pr_draft.ts` (interactive, may throw). -/
  draftPrompt : Except Unit Bool
  /-- `context.interactive`. -/
  interactive : Bool

structure PRActionArgs where
  branchName : String
  updateOnly : Bool
  draft : Bool
  publish : Bool
  dryRun : Bool
  select : Bool
deriving DecidableEq, Repr

inductive TPRSubmissionAction where
  | create (branchName : String)
  | update (branchName : String) (prNumber : Nat)
deriving DecidableEq, Repr

def TPRSubmissionAction.branchName : TPRSubmissionAction → String
  | .create b => b
  | .update b _ => b

/-- Embedding of `getPRAction` (`prepare_branches.ts`).  Returns the
optional submission action together with a flag recording whether the
`selectBranch` prompt was invoked (it is invoked exactly when `select`
is set and the calculated status is not NOOP, by JS short-circuit
evaluation of `!args.select || calculatedStatus === 'NOOP' || await
selectBranch(...)`).  The `splog.info` line is log-only and not
modelled. -/
def getPRActionB (args : PRActionArgs) (ctx : SubmitCtx) :
    Option TPRSubmissionAction × Bool :=
  let parentBranchName := ctx.getParent args.branchName
  let prNumber := ctx.getPrNumber args.branchName
  let calcStatus := calculatedStatus prNumber args.updateOnly
    (ctx.getPrBase args.branchName) parentBranchName
    (ctx.branchMatchesRemote args.branchName) args.draft args.publish
    (ctx.getPrIsDraft args.branchName)
  let prompted := args.select && !(calcStatus == .NOOP)
  let status :=
    if !args.select || calcStatus == .NOOP || ctx.userSelects args.branchName
    then calcStatus else .NOOP
  (if args.dryRun || status == .NOOP then none
   else some (match prNumber with
     | none => .create args.branchName
     | some n => .update args.branchName n),
   prompted)

structure CreationArgs where
  branchName : String
  editPRFieldsInline : Bool
  draft : Bool
  publish : Bool
  reviewers : Bool
deriving DecidableEq, Repr

structure PRCreationResult where
  title : String
  body : String
  reviewers : List String
  draft : Bool
deriving DecidableEq, Repr

/-- Embedding of `getPRCreationInfo` (`prepare_branches.ts`).  The result
pairs the overall outcome with the list of `upsertPrInfo` writes issued
to the metadata store.  The source's `try { title; body } finally
{ upsertPrInfo(branchName, submitInfo) }` is embedded path-by-path: the
`finally` block runs on every exit of the `try` block, so every branch
of the match records exactly one write holding the fields of
`submitInfo` obtained so far.  The reviewer fetch and the draft-status
computation (`publish ? false : draft || !interactive ? true : await
getPRDraftStatus`) happen after the write. -/
def getPRCreationInfo (args : CreationArgs) (ctx : SubmitCtx) :
    Except Unit PRCreationResult × List (String × TBranchPRInfo) :=
  match ctx.prTitle args.branchName with
  | .error e => (.error e, [(args.branchName, { title := none, body := none })])
  | .ok t =>
    match ctx.prBody args.branchName with
    | .error e =>
      (.error e, [(args.branchName, { title := some t, body := none })])
    | .ok b =>
      let w : String × TBranchPRInfo :=
        (args.branchName, { title := some t, body := some b })
      match ctx.getReviewersF args.reviewers with
      | .error e => (.error e, [w])
      | .ok revs =>
        let draftRes : Except Unit Bool :=
          if args.publish then .ok false
          else if args.draft || !ctx.interactive then .ok true
          else ctx.draftPrompt
        match draftRes with
        | .error e => (.error e, [w])
        | .ok d =>
          (.ok { title := t, body := b, reviewers := revs, draft := d }, [w])

/-- Modelled from the spec: `upsertPrInfo` on the Metadata Store
(`metadata_ref.ts` is not part of the sources; the spec's Metadata Store
contract has `upsertReviewInfo(branch, partialInfo)`), merging the
provided partial fields into the stored record for that branch. -/
def upsertStore (store : String → TBranchPRInfo)
    (w : String × TBranchPRInfo) : String → TBranchPRInfo :=
  fun b =>
    if b = w.1 then
      { title := w.2.title <|> (store b).title,
        body := w.2.body <|> (store b).body }
    else store b

/-- C3: on every exit path of `getPRCreationInfo` — title fetch failed,
body fetch failed, a later step (reviewers or draft prompt) failed, or
full success — the title and body obtained so far have been written to
the metadata store via `upsertPrInfo`, so they are retrievable from the
store afterwards. -/
theorem c3_creation_info_persists_title_body (args : CreationArgs)
    (ctx : SubmitCtx) (store0 : String → TBranchPRInfo) :
    let ws := (getPRCreationInfo args ctx).2
    let st := ws.foldl upsertStore store0
    (st args.branchName).title =
      (match ctx.prTitle args.branchName with
        | .ok t => some t
        | .error _ => (store0 args.branchName).title) ∧
    (st args.branchName).body =
      (match ctx.prTitle args.branchName, ctx.prBody args.branchName with
        | .ok _, .ok b => some b
        | _, _ => (store0 args.branchName).body) := by
  unfold getPRCreationInfo
  rcases ht : ctx.prTitle args.branchName with e | t <;>
    rcases hb : ctx.prBody args.branchName with e2 | b <;>
    rcases hr : ctx.getReviewersF args.reviewers with e3 | revs <;>
    cases hp : args.publish <;>
    cases hd : args.draft <;>
    cases hi : ctx.interactive <;>
    rcases hdp : ctx.draftPrompt with e4 | d4 <;>
    simp_all [upsertStore, Option.orElse]

/-! ## Submit pipeline: `getPRInfoForBranches`

The first `for await` loop of `getPRInfoForBranches` gathers the
per-branch actions (dropping `undefined` results); the second builds the
submission entries, calling `getPRCreationInfo` for create actions.  A
thrown exception in the second loop propagates out of the function; the
`upsertPrInfo` writes issued before it remain (they went to the metadata
store).  We therefore return the `Except` outcome together with the
write log and the list of branches for which the `selectBranch` prompt
was invoked. -/

structure SubmitArgs where
  branchNames : List String
  editPRFieldsInline : Bool
  draft : Bool
  publish : Bool
  updateOnly : Bool
  dryRun : Bool
  reviewers : Bool
  select : Bool
deriving DecidableEq, Repr

inductive EntryAction where
  | update (prNumber : Nat) (draft : Option Bool)
  | create (info : PRCreationResult)
deriving DecidableEq, Repr

structure SubmissionEntry where
  head : String
  headSha : String
  base : String
  baseSha : String
  action : EntryAction
deriving DecidableEq, Repr

/-- The `getPRAction` argument record built for one branch inside the
first loop of `getPRInfoForBranches`. -/
def branchActionArgs (args : SubmitArgs) (bn : String) : PRActionArgs :=
  { branchName := bn, updateOnly := args.updateOnly, draft := args.draft,
    publish := args.publish, dryRun := args.dryRun, select := args.select }

/-- The calculated (pre-selection) status for one branch, as computed
inside `getPRAction` from the metadata cache reads. -/
def branchCalc (args : SubmitArgs) (ctx : SubmitCtx) (bn : String) :
    PRStatus :=
  calculatedStatus (ctx.getPrNumber bn) args.updateOnly (ctx.getPrBase bn)
    (ctx.getParent bn) (ctx.branchMatchesRemote bn) args.draft args.publish
    (ctx.getPrIsDraft bn)

/-- First loop of `getPRInfoForBranches`: run `getPRAction` on each
branch name, keep the defined actions in order, and record which
branches were prompted. -/
def gatherActions (args : SubmitArgs) (ctx : SubmitCtx) :
    List String → List TPRSubmissionAction × List String
  | [] => ([], [])
  | bn :: rest =>
    let r := getPRActionB (branchActionArgs args bn) ctx
    let rec' := gatherActions args ctx rest
    ((match r.1 with
      | some a => a :: rec'.1
      | none => rec'.1),
     (if r.2 then bn :: rec'.2 else rec'.2))

/-- One submission entry of the second loop of `getPRInfoForBranches`:
head/base names and their revisions from the metadata cache, plus the
action-specific fields. -/
def submitEntry (ctx : SubmitCtx) (bn : String) (a : EntryAction) :
    SubmissionEntry :=
  { head := bn, headSha := ctx.getRevision bn,
    base := ctx.getParent bn,
    baseSha := ctx.getRevision (ctx.getParent bn), action := a }

/-- The `getPRCreationInfo` argument record built inside the second loop
for a create action. -/
def creationArgsFor (args : SubmitArgs) (bn : String) : CreationArgs :=
  { branchName := bn, editPRFieldsInline := args.editPRFieldsInline,
    draft := args.draft, publish := args.publish,
    reviewers := args.reviewers }

/-- Second loop of `getPRInfoForBranches`: build one submission entry per
action.  For updates, `draft` is `args.draft ? true : args.publish ?
false : undefined`.  For creates, `getPRCreationInfo` is awaited; if it
throws, the loop stops and the exception propagates, keeping the writes
issued so far. -/
def submitLoop (args : SubmitArgs) (ctx : SubmitCtx) :
    List TPRSubmissionAction →
      Except Unit (List SubmissionEntry) × List (String × TBranchPRInfo)
  | [] => (.ok [], [])
  | .update bn n :: rest =>
    let e := submitEntry ctx bn (.update n
      (if args.draft then some true
       else if args.publish then some false else none))
    let r := submitLoop args ctx rest
    (r.1.map (e :: ·), r.2)
  | .create bn :: rest =>
    match getPRCreationInfo (creationArgsFor args bn) ctx with
    | (.error e, ws) => (.error e, ws)
    | (.ok info, ws) =>
      let r := submitLoop args ctx rest
      (r.1.map (submitEntry ctx bn (.create info) :: ·), ws ++ r.2)

/-- Embedding of `getPRInfoForBranches` (`prepare_branches.ts`):
the submission plan outcome, the metadata-store write log, and the
branches for which the selection prompt was invoked. -/
def getPRInfoForBranches (args : SubmitArgs) (ctx : SubmitCtx) :
    Except Unit (List SubmissionEntry) × List (String × TBranchPRInfo)
      × List String :=
  let g := gatherActions args ctx args.branchNames
  let s := submitLoop args ctx g.1
  (s.1, s.2, g.2)

/-- With `dryRun` set, `getPRAction` always returns `undefined`. -/
theorem getPRActionB_dryRun (args : PRActionArgs) (ctx : SubmitCtx)
    (h : args.dryRun = true) : (getPRActionB args ctx).1 = none := by
  simp [getPRActionB, h]

/-- With `dryRun` set, the first loop gathers no actions. -/
theorem gatherActions_dryRun (args : SubmitArgs) (ctx : SubmitCtx)
    (h : args.dryRun = true) :
    ∀ bns : List String, (gatherActions args ctx bns).1 = [] := by
  intro bns
  induction bns with
  | nil => simp [gatherActions]
  | cons bn rest ih =>
    simp only [gatherActions]
    rw [getPRActionB_dryRun _ _ (by simp [branchActionArgs, h])]
    exact ih

/-- C10: with `dryRun = true`, `getPRInfoForBranches` returns an empty
submission plan and issues no metadata-store writes — every per-branch
action is discarded, so `getPRCreationInfo` (and hence `upsertPrInfo`)
is never invoked. -/
theorem c10_dryRun_empty_plan_no_writes (args : SubmitArgs)
    (ctx : SubmitCtx) (h : args.dryRun = true) :
    (getPRInfoForBranches args ctx).1 = .ok [] ∧
    (getPRInfoForBranches args ctx).2.1 = [] := by
  unfold getPRInfoForBranches
  simp only []
  rw [gatherActions_dryRun args ctx h args.branchNames]
  simp [submitLoop]

/-- C10 witness: a concrete dry run over two branches (one with a known
PR number, one without) produces an empty plan and no writes. -/
theorem c10_dryRun_empty_plan_no_writes_witness :
    (let args : SubmitArgs :=
      { branchNames := ["feat-a", "feat-b"], editPRFieldsInline := true,
        draft := false, publish := false, updateOnly := false,
        dryRun := true, reviewers := false, select := false }
     let ctx : SubmitCtx :=
      { getParent := fun _ => "main",
        getPrNumber := fun b => if b = "feat-a" then some 5 else none,
        getPrBase := fun _ => some "dev",
        getPrIsDraft := fun _ => none,
        branchMatchesRemote := fun _ => false,
        getRevision := fun _ => "sha",
        userSelects := fun _ => true,
        prTitle := fun _ => .ok "t", prBody := fun _ => .ok "b",
        getReviewersF := fun _ => .ok [], draftPrompt := .ok false,
        interactive := true }
     (getPRInfoForBranches args ctx).1 = .ok [] ∧
       (getPRInfoForBranches args ctx).2.1 = []) :=
  c10_dryRun_empty_plan_no_writes _ _ rfl


/-- An action returned by `getPRAction` carries the branch name it was
asked about. -/
theorem getPRActionB_some_branchName (A : PRActionArgs) (ctx : SubmitCtx)
    (a : TPRSubmissionAction) (h : (getPRActionB A ctx).1 = some a) :
    a.branchName = A.branchName := by
  unfold getPRActionB at h
  simp only [] at h
  rcases hn : ctx.getPrNumber A.branchName with _ | n <;>
    simp only [hn] at h <;>
    (repeat' split at h) <;>
    first
      | exact Option.noConfusion h
      | (simp only [Option.some.injEq] at h; subst h; rfl)

/-- Every action gathered by the first loop is the `getPRAction` result
for its own branch name. -/
theorem gatherActions_mem (args : SubmitArgs) (ctx : SubmitCtx)
    (bns : List String) (a : TPRSubmissionAction)
    (h : a ∈ (gatherActions args ctx bns).1) :
    (getPRActionB (branchActionArgs args a.branchName) ctx).1 = some a := by
  induction bns with
  | nil => simp [gatherActions] at h
  | cons bn rest ih =>
    simp only [gatherActions] at h
    rcases hr : (getPRActionB (branchActionArgs args bn) ctx).1 with _ | a0
    · rw [hr] at h
      exact ih h
    · rw [hr] at h
      rcases List.mem_cons.mp h with rfl | hmem
      · have hbn := getPRActionB_some_branchName _ _ _ hr
        simp only [branchActionArgs] at hbn
        rwa [hbn]
      · exact ih hmem

/-- A branch appears in the prompt log only if the selection prompt was
invoked for it. -/
theorem gatherActions_prompted (args : SubmitArgs) (ctx : SubmitCtx)
    (bns : List String) (bn : String)
    (h : bn ∈ (gatherActions args ctx bns).2) :
    (getPRActionB (branchActionArgs args bn) ctx).2 = true := by
  induction bns with
  | nil => simp [gatherActions] at h
  | cons bn0 rest ih =>
    simp only [gatherActions] at h
    by_cases hp : (getPRActionB (branchActionArgs args bn0) ctx).2 = true
    · rw [if_pos hp] at h
      rcases List.mem_cons.mp h with rfl | hmem
      · exact hp
      · exact ih hmem
    · rw [if_neg hp] at h
      exact ih h

/-- Every metadata-store write of `getPRCreationInfo` is keyed by the
branch being created. -/
theorem getPRCreationInfo_write_key (a : CreationArgs) (ctx : SubmitCtx)
    (w : String × TBranchPRInfo) (h : w ∈ (getPRCreationInfo a ctx).2) :
    w.1 = a.branchName := by
  unfold getPRCreationInfo at h
  rcases ht : ctx.prTitle a.branchName with e | t <;> rw [ht] at h
  · simp at h; simp [h]
  rcases hb : ctx.prBody a.branchName with e2 | b <;> rw [hb] at h
  · simp at h; simp [h]
  rcases hr : ctx.getReviewersF a.reviewers with e3 | revs <;> rw [hr] at h
  · simp at h; simp [h]
  simp only [] at h
  split at h <;> simp at h <;> simp [h]

/-- Every write issued by the second loop is keyed by the branch name of
one of the processed actions. -/
theorem submitLoop_write_key (args : SubmitArgs) (ctx : SubmitCtx)
    (acts : List TPRSubmissionAction) (w : String × TBranchPRInfo)
    (h : w ∈ (submitLoop args ctx acts).2) :
    ∃ a ∈ acts, w.1 = a.branchName := by
  induction acts with
  | nil => simp [submitLoop] at h
  | cons act rest ih =>
    rcases act with bn | ⟨bn, n⟩
    · rcases hc : getPRCreationInfo (creationArgsFor args bn) ctx with ⟨res, ws⟩
      simp only [submitLoop, hc] at h
      rcases res with e0 | info
      · simp only [] at h
        have hkey := getPRCreationInfo_write_key _ ctx w
          (by rw [hc]; exact h)
        exact ⟨.create bn, List.mem_cons_self _ _,
          by simpa [creationArgsFor] using hkey⟩
      · simp only [List.mem_append] at h
        rcases h with h | h
        · have hkey := getPRCreationInfo_write_key _ ctx w
            (by rw [hc]; exact h)
          exact ⟨.create bn, List.mem_cons_self _ _,
            by simpa [creationArgsFor] using hkey⟩
        · obtain ⟨a, ha, hw⟩ := ih h
          exact ⟨a, List.mem_cons_of_mem _ ha, hw⟩
    · simp only [submitLoop] at h
      obtain ⟨a, ha, hw⟩ := ih h
      exact ⟨a, List.mem_cons_of_mem _ ha, hw⟩

/-- Every entry of a successful submission plan has as head the branch
name of one of the processed actions. -/
theorem submitLoop_entry_head (args : SubmitArgs) (ctx : SubmitCtx)
    (acts : List TPRSubmissionAction) (l : List SubmissionEntry)
    (hl : (submitLoop args ctx acts).1 = .ok l) (e : SubmissionEntry)
    (he : e ∈ l) : ∃ a ∈ acts, e.head = a.branchName := by
  induction acts generalizing l with
  | nil =>
    simp only [submitLoop, Except.ok.injEq] at hl
    subst hl
    simp at he
  | cons act rest ih =>
    rcases act with bn | ⟨bn, n⟩
    · rcases hc : getPRCreationInfo (creationArgsFor args bn) ctx with ⟨res, ws⟩
      simp only [submitLoop, hc] at hl
      rcases res with e0 | info
      · simp at hl
      · rcases hr : (submitLoop args ctx rest).1 with e0 | l' <;>
          rw [hr] at hl
        · simp [Except.map] at hl
        · simp only [Except.map, Except.ok.injEq] at hl
          subst hl
          rcases List.mem_cons.mp he with rfl | hmem
          · exact ⟨.create bn, List.mem_cons_self _ _, rfl⟩
          · obtain ⟨a, ha, hh⟩ := ih l' hr hmem
            exact ⟨a, List.mem_cons_of_mem _ ha, hh⟩
    · simp only [submitLoop] at hl
      rcases hr : (submitLoop args ctx rest).1 with e0 | l' <;>
        rw [hr] at hl
      · simp [Except.map] at hl
      · simp only [Except.map, Except.ok.injEq] at hl
        subst hl
        rcases List.mem_cons.mp he with rfl | hmem
        · exact ⟨.update bn n, List.mem_cons_self _ _, rfl⟩
        · obtain ⟨a, ha, hh⟩ := ih l' hr hmem
          exact ⟨a, List.mem_cons_of_mem _ ha, hh⟩

/-- When selection is on: a decline on a non-NOOP branch yields no
action but an invoked prompt; a NOOP branch never invokes the prompt. -/
theorem getPRActionB_select (A : PRActionArgs) (ctx : SubmitCtx)
    (hsel : A.select = true) :
    (calculatedStatus (ctx.getPrNumber A.branchName) A.updateOnly
        (ctx.getPrBase A.branchName) (ctx.getParent A.branchName)
        (ctx.branchMatchesRemote A.branchName) A.draft A.publish
        (ctx.getPrIsDraft A.branchName) ≠ .NOOP →
      ctx.userSelects A.branchName = false →
      (getPRActionB A ctx).1 = none ∧ (getPRActionB A ctx).2 = true) ∧
    (calculatedStatus (ctx.getPrNumber A.branchName) A.updateOnly
        (ctx.getPrBase A.branchName) (ctx.getParent A.branchName)
        (ctx.branchMatchesRemote A.branchName) A.draft A.publish
        (ctx.getPrIsDraft A.branchName) = .NOOP →
      (getPRActionB A ctx).2 = false) := by
  constructor
  · intro hcalc hdecl
    unfold getPRActionB
    simp [hsel, hdecl, hcalc]
  · intro hcalc
    unfold getPRActionB
    simp [hsel, hcalc]

/-- C7: with interactive per-branch selection enabled, if the computed
action for a branch is not NOOP and the user declines, that branch's
action is downgraded to NOOP — it contributes no submission entry and no
metadata-store write is performed for it, although the prompt was shown;
and when the computed action is NOOP the user is never prompted (the
branch never enters the prompt log). -/
theorem c7_select_decline_noop_no_writes (args : SubmitArgs)
    (ctx : SubmitCtx) (bn : String) (hsel : args.select = true) :
    (branchCalc args ctx bn ≠ .NOOP → ctx.userSelects bn = false →
      (getPRActionB (branchActionArgs args bn) ctx).1 = none ∧
      (getPRActionB (branchActionArgs args bn) ctx).2 = true ∧
      (∀ l, (getPRInfoForBranches args ctx).1 = .ok l →
        ∀ e ∈ l, e.head ≠ bn) ∧
      (∀ w ∈ (getPRInfoForBranches args ctx).2.1, w.1 ≠ bn)) ∧
    (branchCalc args ctx bn = .NOOP →
      bn ∉ (getPRInfoForBranches args ctx).2.2) := by
  have hA : (branchActionArgs args bn).select = true := hsel
  have hsplit := getPRActionB_select (branchActionArgs args bn) ctx hA
  constructor
  · intro hcalc hdecl
    have hcalc' : calculatedStatus (ctx.getPrNumber bn) args.updateOnly
        (ctx.getPrBase bn) (ctx.getParent bn)
        (ctx.branchMatchesRemote bn) args.draft args.publish
        (ctx.getPrIsDraft bn) ≠ .NOOP := hcalc
    obtain ⟨hnone, hprompt⟩ := hsplit.1 hcalc' hdecl
    refine ⟨hnone, hprompt, ?_, ?_⟩
    · intro l hl e he heq
      obtain ⟨a, ha, hh⟩ := submitLoop_entry_head args ctx _ l hl e he
      have hact := gatherActions_mem args ctx args.branchNames a ha
      rw [← hh, heq] at hact
      rw [hact] at hnone
      exact Option.noConfusion hnone
    · intro w hw heq
      obtain ⟨a, ha, hh⟩ := submitLoop_write_key args ctx _ w hw
      have hact := gatherActions_mem args ctx args.branchNames a ha
      rw [← hh, heq] at hact
      rw [hact] at hnone
      exact Option.noConfusion hnone
  · intro hcalc hmem
    have hprom := gatherActions_prompted args ctx args.branchNames bn hmem
    have hfalse := hsplit.2 hcalc
    rw [hprom] at hfalse
    exact Bool.noConfusion hfalse

/-- C7 witness: a concrete declined branch (known PR, changed content,
select on, user answers no) yields no action, an invoked prompt, an
empty plan and no writes; and the NOOP case of the conjunction holds
vacuously there. -/
theorem c7_select_decline_noop_no_writes_witness :
    (let args : SubmitArgs :=
      { branchNames := ["feat-a"], editPRFieldsInline := true,
        draft := false, publish := false, updateOnly := false,
        dryRun := false, reviewers := false, select := true }
     let ctx : SubmitCtx :=
      { getParent := fun _ => "main",
        getPrNumber := fun _ => some 7,
        getPrBase := fun _ => some "main",
        getPrIsDraft := fun _ => none,
        branchMatchesRemote := fun _ => false,
        getRevision := fun _ => "sha",
        userSelects := fun _ => false,
        prTitle := fun _ => .ok "t", prBody := fun _ => .ok "b",
        getReviewersF := fun _ => .ok [], draftPrompt := .ok false,
        interactive := true }
     (branchCalc args ctx "feat-a" ≠ .NOOP →
        ctx.userSelects "feat-a" = false →
        (getPRActionB (branchActionArgs args "feat-a") ctx).1 = none ∧
        (getPRActionB (branchActionArgs args "feat-a") ctx).2 = true ∧
        (∀ l, (getPRInfoForBranches args ctx).1 = .ok l →
          ∀ e ∈ l, e.head ≠ "feat-a") ∧
        (∀ w ∈ (getPRInfoForBranches args ctx).2.1, w.1 ≠ "feat-a")) ∧
      (branchCalc args ctx "feat-a" = .NOOP →
        "feat-a" ∉ (getPRInfoForBranches args ctx).2.2)) :=
  c7_select_decline_noop_no_writes _ _ _ rfl

/-! ## Commit actions (`commit_amend.ts` and the unnamed commit-create
action)

The metadata cache operations (`addAll`, `commit`, `getRelativeStack`)
and the restack call are modelled as an explicit event trace; staged /
unstaged working-tree state is part of the context.  The actions return
the trace of events executed together with an optional error: a
precondition failure aborts before the commit event. -/

inductive Scope where
  | UPSTACK_EXCLUSIVE
  | UPSTACK_INCLUSIVE
  | DOWNSTACK
  | FULL_STACK
deriving DecidableEq, Repr

inductive GError where
  | preconditionsFailed
deriving DecidableEq, Repr

inductive CommitEvent where
  /-- `context.metaCache.addAll()`. -/
  | addAllEv
  /-- `context.metaCache.commit({amend?, noEdit?, message, patch})`. -/
  | commitEv (amend : Bool) (noEdit : Bool) (message : Option String)
      (patch : Bool)
  /-- `context.splog.tip(...)` — the `--no-edit` hint. -/
  | tipEv
  /-- `restackBranches(branches, context)`. -/
  | restackEv (branches : List String)
deriving DecidableEq, Repr

structure CommitCtx where
  /-- Whether some change is currently staged. -/
  stagedChanges : Bool
  /-- Whether the working tree has pending changes that `addAll` would
  stage. -/
  unstagedChanges : Bool
  /-- `context.metaCache.currentBranchPrecondition` (assumed to
  succeed). -/
  currentBranch : String
  /-- `context.metaCache.getRelativeStack`. -/
  getRelativeStack : String → Scope → List String

/-- Whether some change is staged after the optional `addAll` step. -/
def stagedAfterAdd (addAll : Bool) (ctx : CommitCtx) : Bool :=
  if addAll then ctx.stagedChanges || ctx.unstagedChanges
  else ctx.stagedChanges

/-- Modelled from the spec: `ensureSomeStagedChangesPrecondition` from
`lib/preconditions` (not among the sources) "enforces the precondition
that some change is staged (fails otherwise with a distinct
precondition error)" — the `PreconditionsFailed` error kind of
`lib/errors.ts`. -/
def ensureSomeStagedChangesPrecondition (staged : Bool) :
    Except GError Unit :=
  if staged then .ok () else .error .preconditionsFailed

structure CommitAmendOpts where
  addAll : Bool
  message : Option String
  noEdit : Bool
  patch : Bool
deriving DecidableEq, Repr

structure CommitCreateOpts where
  addAll : Bool
  patch : Bool
  message : Option String
deriving DecidableEq, Repr

/-- Embedding of `commitAmendAction` (`commit_amend.ts`): optional
`addAll`, precondition check only under `noEdit`, amend commit with
`patch: !addAll && patch`, the `--no-edit` tip only when `!noEdit`, then
`restackBranches(getRelativeStack(currentBranch, UPSTACK_EXCLUSIVE))`. -/
def commitAmendAction (opts : CommitAmendOpts) (ctx : CommitCtx) :
    List CommitEvent × Option GError :=
  let ev0 : List CommitEvent :=
    if opts.addAll then [.addAllEv] else []
  let staged := stagedAfterAdd opts.addAll ctx
  let go : List CommitEvent × Option GError :=
    (ev0 ++
      [.commitEv true opts.noEdit opts.message (!opts.addAll && opts.patch)] ++
      (if !opts.noEdit then [.tipEv] else []) ++
      [.restackEv (ctx.getRelativeStack ctx.currentBranch .UPSTACK_EXCLUSIVE)],
     none)
  if opts.noEdit then
    match ensureSomeStagedChangesPrecondition staged with
    | .error e => (ev0, some e)
    | .ok _ => go
  else go

/-- Embedding of `commitCreateAction` (the unnamed source file):
optional `addAll`, unconditional precondition check, plain commit with
`patch: !addAll && patch`, then
`restackBranches(getRelativeStack(currentBranch, UPSTACK_EXCLUSIVE))`. -/
def commitCreateAction (opts : CommitCreateOpts) (ctx : CommitCtx) :
    List CommitEvent × Option GError :=
  let ev0 : List CommitEvent :=
    if opts.addAll then [.addAllEv] else []
  let staged := stagedAfterAdd opts.addAll ctx
  match ensureSomeStagedChangesPrecondition staged with
  | .error e => (ev0, some e)
  | .ok _ =>
    (ev0 ++
      [.commitEv false false opts.message (!opts.addAll && opts.patch)] ++
      [.restackEv (ctx.getRelativeStack ctx.currentBranch .UPSTACK_EXCLUSIVE)],
     none)

/-- Whether a trace event is a commit invocation. -/
def CommitEvent.isCommit : CommitEvent → Bool
  | .commitEv _ _ _ _ => true
  | _ => false

/-- The restack invocations of a trace, with their branch lists. -/
def restackCalls (evs : List CommitEvent) : List (List String) :=
  evs.filterMap fun e =>
    match e with
    | .restackEv bs => some bs
    | _ => none

/-- C4 counterexample: commit-amend with `noEdit = false` and zero
staged changes (also after the optional stage-all step) does not fail
with a precondition error — it proceeds to the commit — refuting the
claim that both commit actions fail with `PreconditionFailed` whenever
zero changes are staged. -/
theorem c4_amend_no_noEdit_skips_precondition :
    (let ctx : CommitCtx :=
      { stagedChanges := false, unstagedChanges := false,
        currentBranch := "feat", getRelativeStack := fun _ _ => [] }
     let opts : CommitAmendOpts :=
      { addAll := false, message := none, noEdit := false, patch := false }
     stagedAfterAdd opts.addAll ctx = false ∧
       (commitAmendAction opts ctx).2 = none ∧
       (commitAmendAction opts ctx).1.any CommitEvent.isCommit = true) := by
  decide

/-- C4 amended: commit-create always fails with the distinct
`PreconditionsFailed` error before any commit is attempted when zero
changes are staged after the optional stage-all step, and commit-amend
does so when `noEdit = true`; commit-amend with `noEdit = false` skips
this check. -/
theorem c4_staged_precondition (oc : CommitCreateOpts)
    (oa : CommitAmendOpts) (ctx : CommitCtx)
    (hc : stagedAfterAdd oc.addAll ctx = false)
    (ha : stagedAfterAdd oa.addAll ctx = false)
    (hne : oa.noEdit = true) :
    ((commitCreateAction oc ctx).2 = some .preconditionsFailed ∧
      (commitCreateAction oc ctx).1.any CommitEvent.isCommit = false) ∧
    ((commitAmendAction oa ctx).2 = some .preconditionsFailed ∧
      (commitAmendAction oa ctx).1.any CommitEvent.isCommit = false) := by
  constructor
  · unfold commitCreateAction
    simp only [hc, ensureSomeStagedChangesPrecondition]
    rcases h : oc.addAll with _ | _ <;>
      simp [CommitEvent.isCommit]
  · unfold commitAmendAction
    simp only [ha, hne, ensureSomeStagedChangesPrecondition]
    rcases h : oa.addAll with _ | _ <;>
      simp [CommitEvent.isCommit]

/-- C4 witness: concrete amend (`noEdit = true`) and create invocations
with zero staged changes fail with `PreconditionsFailed` and no commit
event. -/
theorem c4_staged_precondition_witness :
    (let ctx : CommitCtx :=
      { stagedChanges := false, unstagedChanges := false,
        currentBranch := "feat", getRelativeStack := fun _ _ => ["up1"] }
     let oc : CommitCreateOpts :=
      { addAll := false, patch := false, message := none }
     let oa : CommitAmendOpts :=
      { addAll := false, message := none, noEdit := true, patch := false }
     ((commitCreateAction oc ctx).2 = some .preconditionsFailed ∧
       (commitCreateAction oc ctx).1.any CommitEvent.isCommit = false) ∧
     ((commitAmendAction oa ctx).2 = some .preconditionsFailed ∧
       (commitAmendAction oa ctx).1.any CommitEvent.isCommit = false)) :=
  c4_staged_precondition _ _ _ rfl rfl rfl

/-- C8: on success (no error), both commit actions invoke the restack
engine exactly once, on exactly
`getRelativeStack(currentBranch, UPSTACK_EXCLUSIVE)` — the branches
strictly above the current branch. -/
theorem c8_commit_restacks_upstack_exclusive (oa : CommitAmendOpts)
    (oc : CommitCreateOpts) (ctx : CommitCtx)
    (ha : (commitAmendAction oa ctx).2 = none)
    (hc : (commitCreateAction oc ctx).2 = none) :
    restackCalls (commitAmendAction oa ctx).1 =
      [ctx.getRelativeStack ctx.currentBranch .UPSTACK_EXCLUSIVE] ∧
    restackCalls (commitCreateAction oc ctx).1 =
      [ctx.getRelativeStack ctx.currentBranch .UPSTACK_EXCLUSIVE] := by
  constructor
  · unfold commitAmendAction at ha ⊢
    rcases hne : oa.noEdit with _ | _ <;>
      simp only [hne] at ha ⊢ <;>
      rcases hs : ensureSomeStagedChangesPrecondition
          (stagedAfterAdd oa.addAll ctx) with e | u <;>
      simp_all <;>
      rcases hadd : oa.addAll with _ | _ <;>
      simp [restackCalls, List.filterMap]
  · unfold commitCreateAction at hc ⊢
    rcases hs : ensureSomeStagedChangesPrecondition
        (stagedAfterAdd oc.addAll ctx) with e | u <;>
      simp_all <;>
      rcases hadd : oc.addAll with _ | _ <;>
      simp [restackCalls, List.filterMap]

/-- C8 witness: successful concrete amend and create invocations restack
exactly the UPSTACK_EXCLUSIVE relative stack of the current branch. -/
theorem c8_commit_restacks_upstack_exclusive_witness :
    (let ctx : CommitCtx :=
      { stagedChanges := true, unstagedChanges := false,
        currentBranch := "feat",
        getRelativeStack := fun b s =>
          if b = "feat" ∧ s = Scope.UPSTACK_EXCLUSIVE then ["up1", "up2"]
          else [] }
     let oa : CommitAmendOpts :=
      { addAll := false, message := none, noEdit := false, patch := false }
     let oc : CommitCreateOpts :=
      { addAll := false, patch := false, message := some "m" }
     restackCalls (commitAmendAction oa ctx).1 =
        [ctx.getRelativeStack ctx.currentBranch .UPSTACK_EXCLUSIVE] ∧
      restackCalls (commitCreateAction oc ctx).1 =
        [ctx.getRelativeStack ctx.currentBranch .UPSTACK_EXCLUSIVE]) :=
  c8_commit_restacks_upstack_exclusive _ _ _ (by decide) (by decide)

/-- C9: the `--no-edit` tip is emitted exactly once per invocation and
only by amends that did not suppress message editing: commit-create
never emits it, commit-amend with `noEdit = true` never emits it, and
commit-amend with `noEdit = false` emits it exactly once.  (Whether the
emitted tip reaches the terminal for non-interactive runs is the
business of the external `splog` collaborator.) -/
theorem c9_tip_emitted_once_iff_edit_amend (oa : CommitAmendOpts)
    (oc : CommitCreateOpts) (ctx : CommitCtx) :
    (commitCreateAction oc ctx).1.count .tipEv = 0 ∧
    (commitAmendAction oa ctx).1.count .tipEv =
      (if oa.noEdit then 0 else 1) := by
  constructor
  · unfold commitCreateAction
    rcases hs : ensureSomeStagedChangesPrecondition
        (stagedAfterAdd oc.addAll ctx) with e | u <;>
      rcases hadd : oc.addAll with _ | _ <;>
      simp_all [List.count_cons, List.count_append]
  · unfold commitAmendAction
    rcases hne : oa.noEdit with _ | _ <;>
      rcases hs : ensureSomeStagedChangesPrecondition
          (stagedAfterAdd oa.addAll ctx) with e | u <;>
      rcases hadd : oa.addAll with _ | _ <;>
      simp_all [List.count_cons, List.count_append]


/-! ## Stack builder: the `withParents` source search
(`abstract_stack_builder.ts`)

A built `Stack` is a tree of nodes (`stackNodeT`), each wrapping a
branch and owning its children; the parent back-references are not
needed for the search.  `upstackInclusiveFromBranchWithParents` builds
the full stack (abstract `fullStackFromBranch`) and walks it with a
worklist (`possibleSourceNodes`), popping from the end (`Array.pop`) and
appending children (`concat`), looking for the node whose branch name
matches; on a match it promotes that node to `source`.  The `throw`
inside the loop guards only `pop()` returning `undefined`, which cannot
happen while the loop condition `length > 0` holds; when the name is
never found the loop drains the worklist and the stack is returned with
its original source.  We embed the loop on an arbitrary tree, returning
the resulting source node (or the error the `throw` would raise). -/

inductive StackNode where
  | mk (name : String) (children : List StackNode)

def StackNode.name : StackNode → String
  | .mk n _ => n

def StackNode.children : StackNode → List StackNode
  | .mk _ c => c

/-- Total number of nodes in a forest. -/
def sizeL : List StackNode → Nat
  | [] => 0
  | .mk _ cs :: rest => 1 + sizeL cs + sizeL rest

theorem sizeL_append (xs ys : List StackNode) :
    sizeL (xs ++ ys) = sizeL xs + sizeL ys := by
  induction xs with
  | nil => simp [sizeL]
  | cons hd tl ih =>
    rcases hd with ⟨n, cs⟩
    simp [sizeL, ih]
    omega

theorem sizeL_singleton (n : StackNode) :
    sizeL [n] = 1 + sizeL n.children := by
  rcases n with ⟨nm, cs⟩
  simp [sizeL, StackNode.children]

/-- Embedding of the search loop of
`upstackInclusiveFromBranchWithParents`: worklist processing with
pop-from-the-end (`Array.pop` takes the last element) and child
concatenation.  `orig` is the stack's original source node; the `[]`
case is the loop exiting with the worklist drained (the function then
returns the stack unchanged), and the `error` case is the `throw new
Error("Stack missing source node, shouldnt happen")` branch, reachable
only if popping a nonempty worklist yielded nothing. -/
def findSourceLoop (target : String) (orig : StackNode) :
    List StackNode → Except String StackNode
  | [] => .ok orig
  | hd :: tl =>
    match hl : (hd :: tl).getLast? with
    | none => .error "Stack missing source node, shouldnt happen"
    | some node =>
      if node.name = target then .ok node
      else findSourceLoop target orig ((hd :: tl).dropLast ++ node.children)
termination_by ws => sizeL ws
decreasing_by
  have hne : hd :: tl ≠ [] := by simp
  have hnode : node = (hd :: tl).getLast hne := by
    have h2 := List.getLast?_eq_getLast (hd :: tl) hne
    rw [hl] at h2
    exact Option.some.inj h2
  calc sizeL ((hd :: tl).dropLast ++ node.children)
      = sizeL (hd :: tl).dropLast + sizeL node.children := sizeL_append _ _
    _ < sizeL (hd :: tl).dropLast + (1 + sizeL node.children) := by omega
    _ = sizeL (hd :: tl).dropLast + sizeL [node] := by rw [sizeL_singleton]
    _ = sizeL ((hd :: tl).dropLast ++ [node]) := (sizeL_append _ _).symm
    _ = sizeL (hd :: tl) := by
        rw [hnode, List.dropLast_append_getLast hne]

/-- Embedding of `upstackInclusiveFromBranchWithParents`
(`abstract_stack_builder.ts`), applied to the stack built by the
abstract `fullStackFromBranch`: the search starts from the worklist
`[stack.source]` and yields the stack's final source node. -/
def upstackInclusiveFromBranchWithParents (source : StackNode)
    (branch : String) : Except String StackNode :=
  findSourceLoop branch source [source]

/-- The search loop can never reach its `throw` branch: popping a
nonempty worklist always yields a node, so the loop either finds the
branch or drains the worklist and returns the original source
silently — the not-found case is not signalled. -/
theorem findSourceLoop_never_errors (target : String) (orig : StackNode) :
    ∀ n ws, sizeL ws ≤ n → ∃ r, findSourceLoop target orig ws = .ok r := by
  intro n
  induction n with
  | zero =>
    intro ws h
    rcases ws with _ | ⟨⟨nm, cs⟩, rest⟩
    · exact ⟨orig, by simp [findSourceLoop]⟩
    · exfalso
      simp [sizeL] at h
  | succ m ih =>
    intro ws h
    rcases ws with _ | ⟨hd, rest⟩
    · exact ⟨orig, by simp [findSourceLoop]⟩
    · have hne : hd :: rest ≠ [] := by simp
      rw [findSourceLoop]
      split
      · rename_i hl0
        have hcontra := List.getLast?_eq_getLast (hd :: rest) hne
        rw [hl0] at hcontra
        exact Option.noConfusion hcontra
      · rename_i node hl
        have hnode : node = (hd :: rest).getLast hne := by
          have h2 := List.getLast?_eq_getLast (hd :: rest) hne
          rw [hl] at h2
          exact Option.some.inj h2
        by_cases heq : node.name = target
        · exact ⟨node, by rw [if_pos heq]⟩
        · rw [if_neg heq]
          apply ih
          have hsz : sizeL ((hd :: rest).dropLast ++ node.children) <
              sizeL (hd :: rest) := by
            calc sizeL ((hd :: rest).dropLast ++ node.children)
                = sizeL (hd :: rest).dropLast + sizeL node.children :=
                  sizeL_append _ _
              _ < sizeL (hd :: rest).dropLast + (1 + sizeL node.children) := by
                  omega
              _ = sizeL (hd :: rest).dropLast + sizeL [node] := by
                  rw [sizeL_singleton]
              _ = sizeL ((hd :: rest).dropLast ++ [node]) :=
                  (sizeL_append _ _).symm
              _ = sizeL (hd :: rest) := by
                  rw [hnode, List.dropLast_append_getLast hne]
          omega

/-- C2 evidence: searching a concrete two-node stack for a branch name
that is not in it returns the stack silently (`Except.ok` with the
original source node) instead of signalling the fatal
internal-consistency error — the `throw` guards an impossible `pop`
failure, not the not-found case, so the not-found case falls through to
the plain `return stack`. -/
theorem c2_search_not_found_returns_silently :
    upstackInclusiveFromBranchWithParents
        (.mk "main" [.mk "feat-a" []]) "ghost" =
      .ok (.mk "main" [.mk "feat-a" []]) := by
  unfold upstackInclusiveFromBranchWithParents
  simp [findSourceLoop, List.getLast?, StackNode.name, List.dropLast,
    StackNode.children]

/-! ## Stack builder: the `withoutParents` expansion
(`abstract_stack_builder.ts`)

`upstackInclusiveFromBranchWithoutParents` creates a synthetic source
node with empty parent links, then runs a worklist loop: `nodes.pop()`
removes the LAST element (`Array.pop`), the popped node's children are
set to `getChildrenForBranch` of its branch (one fresh node per child),
and the children are appended (`concat`) to the worklist; the loop runs
until the worklist drains.  `getChildrenForBranch` is abstract in this
class — per the spec it returns the branches whose parent equals the
given branch — so it is a parameter `children` here.  Because every
created node is pushed exactly once and popped exactly once, the final
tree is the recursive unfolding of `children` from the source branch
(`unfoldNode`), and the order in which branches are processed is the
worklist order (`expandVisit`).  The parent back-references are not
modelled: the synthetic source's parent list is empty by construction
and each child's parent is the node that created it. -/

/-- Visit order of the worklist loop of
`upstackInclusiveFromBranchWithoutParents`: pop from the end, append
the popped branch's children, repeat while nonempty.  `none` means the
fuel ran out before the loop drained. -/
def expandVisit (children : String → List String) :
    Nat → List String → Option (List String)
  | 0, ws => if ws.isEmpty then some [] else none
  | fuel+1, ws =>
    match ws.getLast? with
    | none => some []
    | some cur =>
      (expandVisit children fuel (ws.dropLast ++ children cur)).map (cur :: ·)

/-- Modelled from the spec: the "breadth-first expansion" the spec
describes — the same loop but consuming the worklist from the FRONT
(FIFO queue), which is what breadth-first order means.  Written from
the spec's words, to be compared with `expandVisit` embedded from the
source. -/
def specBfsVisit (children : String → List String) :
    Nat → List String → Option (List String)
  | 0, ws => if ws.isEmpty then some [] else none
  | _+1, [] => some []
  | fuel+1, cur :: rest =>
    (specBfsVisit children fuel (rest ++ children cur)).map (cur :: ·)

/-- A small concrete child map: a has children b and c; b has child d. -/
def exChildren : String → List String := fun s =>
  if s = "a" then ["b", "c"] else if s = "b" then ["d"] else []

/-- A measure witnessing that `exChildren` is acyclic. -/
def exMu : String → Nat := fun s =>
  if s = "a" then 2 else if s = "b" then 1 else 0

/-- C5 counterexample: the expansion of
`upstackInclusiveFromBranchWithoutParents` is not breadth-first — the
worklist is popped from the end (LIFO), so on the graph
a → {b, c}, b → {d} the source's expansion processes the branches in
the order a, c, b, d, while a breadth-first expansion would process
them in the order a, b, c, d. -/
theorem c5_expansion_order_not_bfs :
    expandVisit exChildren 9 ["a"] = some ["a", "c", "b", "d"] ∧
    specBfsVisit exChildren 9 ["a"] = some ["a", "b", "c", "d"] ∧
    (["a", "c", "b", "d"] : List String) ≠ ["a", "b", "c", "d"] := by
  refine ⟨by decide, by decide, by decide⟩

/-- Potential of a worklist: enough fuel to drain it when `μ` strictly
decreases from a branch to its children and no branch has more than
`L` children. -/
def phiP (μ : String → Nat) (L : Nat) (ws : List String) : Nat :=
  (ws.map (fun x => (L+1)^(μ x + 1))).sum

theorem phiP_append (μ : String → Nat) (L : Nat) (xs ys : List String) :
    phiP μ L (xs ++ ys) = phiP μ L xs + phiP μ L ys := by
  simp [phiP]

theorem phiP_pos (μ : String → Nat) (L : Nat) (ws : List String)
    (h : ws ≠ []) : 0 < phiP μ L ws := by
  rcases ws with _ | ⟨x, rest⟩
  · simp at h
  · simp only [phiP, List.map_cons, List.sum_cons]
    have : 0 < (L+1)^(μ x + 1) := Nat.pos_pow_of_pos _ (by omega)
    omega

theorem phiP_children_le (children : String → List String)
    (μ : String → Nat) (L : Nat)
    (hμ : ∀ x c, c ∈ children x → μ c < μ x)
    (hL : ∀ x, (children x).length ≤ L) (cur : String) :
    phiP μ L (children cur) ≤ L * (L+1)^(μ cur) := by
  have hbound : ∀ c ∈ children cur,
      (L+1)^(μ c + 1) ≤ (L+1)^(μ cur) := by
    intro c hc
    exact Nat.pow_le_pow_right (by omega) (by have := hμ cur c hc; omega)
  calc phiP μ L (children cur)
      ≤ (children cur).length * (L+1)^(μ cur) := by
        unfold phiP
        have := List.sum_le_card_nsmul
          ((children cur).map (fun x => (L+1)^(μ x + 1)))
          ((L+1)^(μ cur)) (by
            intro y hy
            simp only [List.mem_map] at hy
            obtain ⟨c, hc, rfl⟩ := hy
            exact hbound c hc)
        simpa [smul_eq_mul] using this
    _ ≤ L * (L+1)^(μ cur) :=
        Nat.mul_le_mul_right _ (hL cur)

/-- Drain lemma: with fuel at least the potential, the worklist loop
terminates (returns a visit order). -/
theorem expandVisit_isSome (children : String → List String)
    (μ : String → Nat) (L : Nat)
    (hμ : ∀ x c, c ∈ children x → μ c < μ x)
    (hL : ∀ x, (children x).length ≤ L) :
    ∀ fuel ws, phiP μ L ws ≤ fuel →
      (expandVisit children fuel ws).isSome = true := by
  intro fuel
  induction fuel with
  | zero =>
    intro ws h
    have hnil : ws = [] := by
      by_contra hne
      have := phiP_pos μ L ws hne
      omega
    subst hnil
    simp [expandVisit]
  | succ m ih =>
    intro ws h
    rcases hws : ws.getLast? with _ | cur
    · have : ws = [] := List.getLast?_eq_none_iff.mp hws
      subst this
      simp [expandVisit]
    · have hne : ws ≠ [] := by
        intro hnil; subst hnil; simp at hws
      rw [expandVisit, hws]
      simp only []
      have hsplit : ws.dropLast ++ [cur] = ws := by
        have hcur : cur = ws.getLast hne := by
          have h2 := List.getLast?_eq_getLast ws hne
          rw [hws] at h2
          exact Option.some.inj h2
        rw [hcur]
        exact List.dropLast_append_getLast hne
      have hbound : phiP μ L (ws.dropLast ++ children cur) ≤ m := by
        have hphi : phiP μ L ws =
            phiP μ L ws.dropLast + (L+1)^(μ cur + 1) := by
          conv_lhs => rw [← hsplit]
          rw [phiP_append]
          simp [phiP]
        have hnew : phiP μ L (ws.dropLast ++ children cur) =
            phiP μ L ws.dropLast + phiP μ L (children cur) :=
          phiP_append _ _ _ _
        have hch := phiP_children_le children μ L hμ hL cur
        have hpow : 0 < (L+1)^(μ cur) := Nat.pos_pow_of_pos _ (by omega)
        have hstep : (L+1)^(μ cur + 1) =
            L * (L+1)^(μ cur) + (L+1)^(μ cur) := by
          ring
        omega
      have hih := ih _ hbound
      rcases hx : expandVisit children m (ws.dropLast ++ children cur)
        with _ | v
      · rw [hx] at hih
        exact absurd hih (by simp)
      · rfl

/-- A node of the tree built by
`upstackInclusiveFromBranchWithoutParents` (`stackNodeT` without the
parent back-references). -/
inductive BNode where
  | mk (branch : String) (children : List BNode)

def BNode.branch : BNode → String
  | .mk b _ => b

/-- The tree built by the expansion: every node that enters the
worklist is eventually popped and has its children set to exactly
`getChildrenForBranch` of its branch, so the final tree rooted at the
synthetic source is the recursive unfolding of `children`, truncated
only if the fuel runs out before the graph's depth. -/
def unfoldNode (children : String → List String) :
    Nat → String → BNode
  | 0, b => .mk b []
  | fuel+1, b => .mk b ((children b).map (unfoldNode children fuel))

mutual

/-- Every node of the tree carries as children exactly the branches
`children` gives for its branch. -/
def goodTree (children : String → List String) : BNode → Bool
  | .mk b cs =>
    (cs.map BNode.branch == children b) && goodForest children cs

def goodForest (children : String → List String) : List BNode → Bool
  | [] => true
  | t :: ts => goodTree children t && goodForest children ts

end

theorem unfoldNode_branch (children : String → List String)
    (fuel : Nat) (b : String) :
    (unfoldNode children fuel b).branch = b := by
  cases fuel <;> rfl

theorem goodForest_of_all (children : String → List String)
    (l : List BNode) (h : ∀ t ∈ l, goodTree children t = true) :
    goodForest children l = true := by
  induction l with
  | nil => rfl
  | cons t ts ih =>
    rw [goodForest]
    rw [h t (by simp), ih (fun u hu => h u (by simp [hu]))]
    rfl

/-- With enough fuel for the acyclicity measure, the unfolded tree
attaches as children of every node exactly the branches whose parent
is that node's branch. -/
theorem unfoldNode_good (children : String → List String)
    (μ : String → Nat) (hμ : ∀ x c, c ∈ children x → μ c < μ x) :
    ∀ fuel b, μ b ≤ fuel →
      goodTree children (unfoldNode children fuel b) = true := by
  intro fuel
  induction fuel with
  | zero =>
    intro b hb
    have hnil : children b = [] := by
      rcases hc : children b with _ | ⟨c, cs⟩
      · rfl
      · exfalso
        have := hμ b c (by rw [hc]; simp)
        omega
    rw [unfoldNode, goodTree]
    simp [hnil, goodForest]
  | succ m ih =>
    intro b hb
    rw [unfoldNode, goodTree]
    have hnames : ((children b).map (unfoldNode children m)).map
        BNode.branch = children b := by
      rw [List.map_map]
      have : (BNode.branch ∘ unfoldNode children m) = id := by
        funext c
        simp [unfoldNode_branch]
      rw [this, List.map_id]
    rw [hnames]
    have hforest := goodForest_of_all children
      ((children b).map (unfoldNode children m)) (by
        intro t ht
        simp only [List.mem_map] at ht
        obtain ⟨c, hc, rfl⟩ := ht
        exact ih c (by have := hμ b c hc; omega))
    rw [hforest]
    simp

/-- C5 amended: for every finite acyclic child map (a measure `μ`
strictly decreasing from branch to child, child lists bounded by `L`),
the LIFO worklist expansion of
`upstackInclusiveFromBranchWithoutParents` terminates — explicit fuel
`phiP μ L [b]` drains the worklist — starting with the synthetic source
branch itself, and the resulting tree attaches as child nodes of every
node exactly the branches whose parent equals that node's branch.  (The
expansion order is LIFO, not breadth-first; see the counterexample.) -/
theorem c5_expansion_terminates_children_exact
    (children : String → List String) (μ : String → Nat) (L : Nat)
    (b : String)
    (hμ : ∀ x c, c ∈ children x → μ c < μ x)
    (hL : ∀ x, (children x).length ≤ L) :
    (∃ order, expandVisit children (phiP μ L [b]) [b] = some order ∧
        order.head? = some b) ∧
    (∀ fuel, μ b ≤ fuel →
      goodTree children (unfoldNode children fuel b) = true) := by
  constructor
  · have hsome := expandVisit_isSome children μ L hμ hL
      (phiP μ L [b]) [b] le_rfl
    have hpos : 0 < phiP μ L [b] := phiP_pos μ L [b] (by simp)
    rcases hf : phiP μ L [b] with _ | m
    · omega
    · rw [hf] at hsome
      rcases hx : expandVisit children m
          (([b] : List String).dropLast ++ children b) with _ | v
      · rw [expandVisit, show ([b] : List String).getLast? = some b
            from rfl] at hsome
        simp only [] at hsome
        rw [hx] at hsome
        simp at hsome
      · refine ⟨b :: v, ?_, rfl⟩
        rw [expandVisit, show ([b] : List String).getLast? = some b
            from rfl]
        simp only []
        rw [hx]
        rfl
  · exact fun fuel hf => unfoldNode_good children μ hμ fuel b hf

/-- C5 witness: the amended claim holds on the concrete acyclic graph
a → {b, c}, b → {d} with its explicit measure. -/
theorem c5_expansion_terminates_children_exact_witness :
    ((∃ order,
        expandVisit exChildren (phiP exMu 2 ["a"]) ["a"] = some order ∧
        order.head? = some "a") ∧
      (∀ fuel, exMu "a" ≤ fuel →
        goodTree exChildren (unfoldNode exChildren fuel "a") = true)) :=
  c5_expansion_terminates_children_exact exChildren exMu 2 "a"
    (by
      intro x c hc
      simp only [exChildren] at hc
      split_ifs at hc with h1 h2
      · subst h1
        simp only [List.mem_cons, List.not_mem_nil, or_false] at hc
        rcases hc with rfl | rfl <;> decide
      · subst h2
        simp only [List.mem_cons, List.not_mem_nil, or_false] at hc
        subst hc
        decide
      · simp at hc)
    (by
      intro x
      simp only [exChildren]
      split_ifs <;> simp)

/-! ## Stack builder: `allStacksFromTrunk` partitions the branches
(`abstract_stack_builder.ts`)

`allStacksFromTrunk` maps `fullStackFromBranch` over `allStackBaseNames`.
`allStackBaseNames` lists all branches, filters out the ignore set and
the trunk, maps each to its stack base via the abstract
`getStackBaseBranch`, and deduplicates via `new Set` (which keeps the
first occurrence of each name — `jsSetDedup`).  The abstract methods are
modelled from the spec:

  * `getStackBaseBranch` — "Modelled from the spec": the spec calls it
    "the ancestor closest to the trunk reached by following parent
    links", base branches being "branches whose parent is the trunk or
    untracked", with ignored branches acting as alternate roots; so the
    embedding follows parent links while the parent is a tracked,
    non-ignored, non-trunk branch (`fuel` bounds the recursion; the
    rank hypotheses make it sufficient).
  * `fullStackFromBranch` — "Modelled from the spec": "constructs an
    in-memory tree of branches rooted at base branches"; its node list
    is `stackNodes`, the recursive closure of `getChildrenForBranch`
    (the branches whose parent equals the node).

The spec's data-model invariant — the parent relation is a forest
rooted at the trunk and at ignored branches, with no cycles — appears
as the hypotheses of the partition theorem: a `rank` measure decreasing
from child to parent, `parent trunk = none`, and `parent i = none` for
ignored `i`. -/

structure Repo where
  branches : List String
  trunk : String
  ignored : List String
  parent : String → Option String

def elig (repo : Repo) (x : String) : Prop :=
  x ∈ repo.branches ∧ x ∉ repo.ignored ∧ x ≠ repo.trunk

instance (repo : Repo) (x : String) : Decidable (elig repo x) := by
  unfold elig; infer_instance

def eligB (repo : Repo) (x : String) : Bool := decide (elig repo x)

def getStackBaseBranch (repo : Repo) : Nat → String → String
  | 0, b => b
  | fuel+1, b =>
    match repo.parent b with
    | some p => if eligB repo p then getStackBaseBranch repo fuel p else b
    | none => b

def childrenOf (repo : Repo) (b : String) : List String :=
  repo.branches.filter (fun c => repo.parent c == some b)

def stackNodes (repo : Repo) : Nat → String → List String
  | 0, b => [b]
  | fuel+1, b => b :: (childrenOf repo b).flatMap (stackNodes repo fuel)

def upChain (repo : Repo) : Nat → String → List String
  | 0, b => [b]
  | fuel+1, b =>
    match repo.parent b with
    | some p => if eligB repo p then b :: upChain repo fuel p else [b]
    | none => [b]

def jsSetDedup : List String → List String
  | [] => []
  | a :: l => a :: jsSetDedup (l.filter (fun x => x ≠ a))
termination_by l => l.length
decreasing_by
  simp only [List.length_cons]
  exact Nat.lt_succ_of_le (List.length_filter_le _ _)

def allStackBaseNames (repo : Repo) (fuel : Nat) : List String :=
  jsSetDedup ((repo.branches.filter
    (fun b => !repo.ignored.contains b && b != repo.trunk)).map
    (getStackBaseBranch repo fuel))

def allStacksFromTrunk (repo : Repo) (fuel : Nat) : List (List String) :=
  (allStackBaseNames repo fuel).map (stackNodes repo fuel)

-- basic lemmas
theorem childrenOf_mem (repo : Repo) (b c : String) :
    c ∈ childrenOf repo b ↔ c ∈ repo.branches ∧ repo.parent c = some b := by
  simp [childrenOf, List.mem_filter]

theorem childrenOf_elig (repo : Repo)
    (Hign : ∀ i ∈ repo.ignored, repo.parent i = none)
    (Htrunk : repo.parent repo.trunk = none)
    {b c : String} (h : c ∈ childrenOf repo b) : elig repo c := by
  rw [childrenOf_mem] at h
  refine ⟨h.1, ?_, ?_⟩
  · intro hmem
    rw [Hign c hmem] at h
    exact Option.noConfusion h.2
  · intro heq
    rw [heq, Htrunk] at h
    exact Option.noConfusion h.2

theorem jsSetDedup_mem : ∀ (l : List String) (x : String),
    x ∈ jsSetDedup l ↔ x ∈ l := by
  intro l
  induction l using jsSetDedup.induct with
  | case1 => simp [jsSetDedup]
  | case2 a t ih =>
    intro x
    rw [jsSetDedup]
    simp only [List.mem_cons]
    constructor
    · rintro (rfl | hx)
      · simp
      · have := (ih x).mp hx
        simp only [List.mem_filter] at this
        exact Or.inr this.1
    · rintro (rfl | hx)
      · exact Or.inl rfl
      · by_cases hxa : x = a
        · exact Or.inl hxa
        · refine Or.inr ((ih x).mpr ?_)
          simp only [List.mem_filter]
          exact ⟨hx, by simp [hxa]⟩

theorem jsSetDedup_nodup : ∀ l : List String, (jsSetDedup l).Nodup := by
  intro l
  induction l using jsSetDedup.induct with
  | case1 => simp [jsSetDedup]
  | case2 a t ih =>
    rw [jsSetDedup]
    refine List.nodup_cons.mpr ⟨?_, ih⟩
    intro hmem
    have h2 := (jsSetDedup_mem _ a).mp hmem
    simp only [List.mem_filter] at h2
    simp at h2

theorem upChain_succ_some (repo : Repo) (m : Nat) (x p : String)
    (hp : repo.parent x = some p) :
    upChain repo (m+1) x =
      if eligB repo p then x :: upChain repo m p else [x] := by
  simp [upChain, hp]

theorem upChain_succ_none (repo : Repo) (m : Nat) (x : String)
    (hp : repo.parent x = none) :
    upChain repo (m+1) x = [x] := by
  simp [upChain, hp]

theorem base_succ_some (repo : Repo) (m : Nat) (x p : String)
    (hp : repo.parent x = some p) :
    getStackBaseBranch repo (m+1) x =
      if eligB repo p then getStackBaseBranch repo m p else x := by
  simp [getStackBaseBranch, hp]

theorem base_succ_none (repo : Repo) (m : Nat) (x : String)
    (hp : repo.parent x = none) :
    getStackBaseBranch repo (m+1) x = x := by
  simp [getStackBaseBranch, hp]

section ChainLemmas

variable (repo : Repo) (rank : String → Nat)

theorem upChain_head (fuel : Nat) (x : String) :
    x ∈ upChain repo fuel x := by
  cases fuel with
  | zero => simp [upChain]
  | succ m =>
    rcases hp : repo.parent x with _ | p
    · simp [upChain_succ_none repo m x hp]
    · rw [upChain_succ_some repo m x p hp]
      by_cases he : eligB repo p <;> simp [he]

theorem upChain_rank_le
    (Hrank : ∀ b p, repo.parent b = some p → rank p < rank b) :
    ∀ fuel x y, y ∈ upChain repo fuel x → rank y ≤ rank x := by
  intro fuel
  induction fuel with
  | zero =>
    intro x y hy
    simp [upChain] at hy
    subst hy
    exact le_refl _
  | succ m ih =>
    intro x y hy
    rcases hp : repo.parent x with _ | p
    · rw [upChain_succ_none repo m x hp] at hy
      simp at hy
      subst hy
      exact le_refl _
    · rw [upChain_succ_some repo m x p hp] at hy
      by_cases he : eligB repo p
      · rw [if_pos he] at hy
        rcases List.mem_cons.mp hy with rfl | hy2
        · exact le_refl _
        · have h1 := ih p y hy2
          have h2 := Hrank x p hp
          omega
      · rw [if_neg he] at hy
        simp at hy
        subst hy
        exact le_refl _

theorem upChain_elig :
    ∀ fuel x y, elig repo x → y ∈ upChain repo fuel x → elig repo y := by
  intro fuel
  induction fuel with
  | zero =>
    intro x y hx hy
    simp [upChain] at hy
    subst hy
    exact hx
  | succ m ih =>
    intro x y hx hy
    rcases hp : repo.parent x with _ | p
    · rw [upChain_succ_none repo m x hp] at hy
      simp at hy
      subst hy
      exact hx
    · rw [upChain_succ_some repo m x p hp] at hy
      by_cases he : eligB repo p
      · rw [if_pos he] at hy
        rcases List.mem_cons.mp hy with rfl | hy2
        · exact hx
        · exact ih p y (of_decide_eq_true he) hy2
      · rw [if_neg he] at hy
        simp at hy
        subst hy
        exact hx

end ChainLemmas

/-- Whether the base-following step continues from `y` (its parent
exists and is an eligible branch). -/
def peB (repo : Repo) (y : String) : Bool :=
  match repo.parent y with
  | some p => eligB repo p
  | none => false

section Stability

variable (repo : Repo) (rank : String → Nat)

theorem upChain_stable
    (Hrank : ∀ b p, repo.parent b = some p → rank p < rank b) :
    ∀ n x f g, rank x ≤ n → rank x < f → rank x < g →
      upChain repo f x = upChain repo g x := by
  intro n
  induction n with
  | zero =>
    intro x f g hn hf hg
    rcases f with _ | f'
    · omega
    rcases g with _ | g'
    · omega
    rcases hp : repo.parent x with _ | p
    · rw [upChain_succ_none repo f' x hp, upChain_succ_none repo g' x hp]
    · rw [upChain_succ_some repo f' x p hp,
        upChain_succ_some repo g' x p hp]
      by_cases he : eligB repo p
      · exfalso
        have := Hrank x p hp
        omega
      · rw [if_neg he, if_neg he]
  | succ m ih =>
    intro x f g hn hf hg
    rcases f with _ | f'
    · omega
    rcases g with _ | g'
    · omega
    rcases hp : repo.parent x with _ | p
    · rw [upChain_succ_none repo f' x hp, upChain_succ_none repo g' x hp]
    · rw [upChain_succ_some repo f' x p hp,
        upChain_succ_some repo g' x p hp]
      by_cases he : eligB repo p
      · rw [if_pos he, if_pos he]
        have hpr := Hrank x p hp
        rw [ih p f' g' (by omega) (by omega) (by omega)]
      · rw [if_neg he, if_neg he]

theorem base_stable
    (Hrank : ∀ b p, repo.parent b = some p → rank p < rank b) :
    ∀ n x f g, rank x ≤ n → rank x < f → rank x < g →
      getStackBaseBranch repo f x = getStackBaseBranch repo g x := by
  intro n
  induction n with
  | zero =>
    intro x f g hn hf hg
    rcases f with _ | f'
    · omega
    rcases g with _ | g'
    · omega
    rcases hp : repo.parent x with _ | p
    · rw [base_succ_none repo f' x hp, base_succ_none repo g' x hp]
    · rw [base_succ_some repo f' x p hp, base_succ_some repo g' x p hp]
      by_cases he : eligB repo p
      · exfalso
        have := Hrank x p hp
        omega
      · rw [if_neg he, if_neg he]
  | succ m ih =>
    intro x f g hn hf hg
    rcases f with _ | f'
    · omega
    rcases g with _ | g'
    · omega
    rcases hp : repo.parent x with _ | p
    · rw [base_succ_none repo f' x hp, base_succ_none repo g' x hp]
    · rw [base_succ_some repo f' x p hp, base_succ_some repo g' x p hp]
      by_cases he : eligB repo p
      · rw [if_pos he, if_pos he]
        have hpr := Hrank x p hp
        rw [ih p f' g' (by omega) (by omega) (by omega)]
      · rw [if_neg he, if_neg he]

end Stability

/-- The canonical (untruncated) upward chain. -/
def upChainC (repo : Repo) (rank : String → Nat) (x : String) :
    List String :=
  upChain repo (rank x + 1) x

/-- The canonical stack base. -/
def baseC (repo : Repo) (rank : String → Nat) (x : String) : String :=
  getStackBaseBranch repo (rank x + 1) x

section Canonical

variable (repo : Repo) (rank : String → Nat)

theorem upChainC_cont
    (Hrank : ∀ b p, repo.parent b = some p → rank p < rank b)
    {x p : String} (hp : repo.parent x = some p)
    (he : eligB repo p = true) :
    upChainC repo rank x = x :: upChainC repo rank p := by
  unfold upChainC
  rw [upChain_succ_some repo (rank x) x p hp, if_pos he]
  have hpr := Hrank x p hp
  rw [upChain_stable repo rank Hrank (rank p) p (rank x) (rank p + 1)
    (le_refl _) (by omega) (by omega)]

theorem upChainC_stop {x : String} (hpe : peB repo x = false) :
    upChainC repo rank x = [x] := by
  unfold upChainC peB at *
  rcases hp : repo.parent x with _ | p
  · exact upChain_succ_none repo (rank x) x hp
  · rw [upChain_succ_some repo (rank x) x p hp]
    rw [hp] at hpe
    simp only [] at hpe
    rw [if_neg (by simp [hpe])]

theorem baseC_cont
    (Hrank : ∀ b p, repo.parent b = some p → rank p < rank b)
    {x p : String} (hp : repo.parent x = some p)
    (he : eligB repo p = true) :
    baseC repo rank x = baseC repo rank p := by
  unfold baseC
  rw [base_succ_some repo (rank x) x p hp, if_pos he]
  have hpr := Hrank x p hp
  rw [base_stable repo rank Hrank (rank p) p (rank x) (rank p + 1)
    (le_refl _) (by omega) (by omega)]

theorem baseC_stop {x : String} (hpe : peB repo x = false) :
    baseC repo rank x = x := by
  unfold baseC peB at *
  rcases hp : repo.parent x with _ | p
  · exact base_succ_none repo (rank x) x hp
  · rw [base_succ_some repo (rank x) x p hp]
    rw [hp] at hpe
    simp only [] at hpe
    rw [if_neg (by simp [hpe])]

/-- Strong-induction helper: every canonical chain ends at a stopping
point, which is the canonical base. -/
theorem baseC_spec
    (Hrank : ∀ b p, repo.parent b = some p → rank p < rank b) :
    ∀ n x, rank x ≤ n →
      baseC repo rank x ∈ upChainC repo rank x ∧
      peB repo (baseC repo rank x) = false := by
  intro n
  induction n with
  | zero =>
    intro x hn
    have hpe : peB repo x = false := by
      unfold peB
      rcases hp : repo.parent x with _ | p
      · rfl
      · by_cases he : eligB repo p
        · exfalso
          have := Hrank x p hp
          omega
        · simp [he]
    rw [upChainC_stop repo rank hpe, baseC_stop repo rank hpe]
    exact ⟨by simp, hpe⟩
  | succ m ih =>
    intro x hn
    by_cases hpe : peB repo x = false
    · rw [upChainC_stop repo rank hpe, baseC_stop repo rank hpe]
      exact ⟨by simp, hpe⟩
    · unfold peB at hpe
      rcases hp : repo.parent x with _ | p
      · rw [hp] at hpe
        simp at hpe
      · rw [hp] at hpe
        simp only [] at hpe
        have he : eligB repo p = true := by
          rcases hb : eligB repo p
          · rw [hb] at hpe; simp at hpe
          · rfl
        have hpr := Hrank x p hp
        obtain ⟨ihmem, ihstop⟩ := ih p (by omega)
        rw [upChainC_cont repo rank Hrank hp he,
          baseC_cont repo rank Hrank hp he]
        exact ⟨List.mem_cons_of_mem _ ihmem, ihstop⟩

/-- A stopping point on a canonical chain is the canonical base. -/
theorem chain_stop_eq_base
    (Hrank : ∀ b p, repo.parent b = some p → rank p < rank b) :
    ∀ n x u, rank x ≤ n → u ∈ upChainC repo rank x →
      peB repo u = false → u = baseC repo rank x := by
  intro n
  induction n with
  | zero =>
    intro x u hn hu hpe
    have hpex : peB repo x = false := by
      unfold peB
      rcases hp : repo.parent x with _ | p
      · rfl
      · by_cases he : eligB repo p
        · exfalso
          have := Hrank x p hp
          omega
        · simp [he]
    rw [upChainC_stop repo rank hpex] at hu
    simp at hu
    subst hu
    rw [baseC_stop repo rank hpex]
  | succ m ih =>
    intro x u hn hu hpe
    by_cases hpex : peB repo x = false
    · rw [upChainC_stop repo rank hpex] at hu
      simp at hu
      subst hu
      rw [baseC_stop repo rank hpex]
    · unfold peB at hpex
      rcases hp : repo.parent x with _ | p
      · rw [hp] at hpex
        simp at hpex
      · rw [hp] at hpex
        simp only [] at hpex
        have he : eligB repo p = true := by
          rcases hb : eligB repo p
          · rw [hb] at hpex; simp at hpex
          · rfl
        have hpr := Hrank x p hp
        rw [upChainC_cont repo rank Hrank hp he] at hu
        rcases List.mem_cons.mp hu with rfl | hu2
        · exfalso
          unfold peB at hpe
          rw [hp] at hpe
          simp only [] at hpe
          rw [he] at hpe
          exact Bool.noConfusion hpe
        · rw [baseC_cont repo rank Hrank hp he]
          exact ih p u (by omega) hu2 hpe

end Canonical

section ChainStructure

variable (repo : Repo) (rank : String → Nat)

/-- If a chain contains `c` whose parent is the eligible branch `u`,
the chain also contains `u`. -/
theorem chain_mem_parent
    (Hrank : ∀ b p, repo.parent b = some p → rank p < rank b) :
    ∀ n x c u, rank x ≤ n → c ∈ upChainC repo rank x →
      repo.parent c = some u → eligB repo u = true →
      u ∈ upChainC repo rank x := by
  intro n
  induction n with
  | zero =>
    intro x c u hn hc hcu hu
    have hpex : peB repo x = false := by
      unfold peB
      rcases hp : repo.parent x with _ | p
      · rfl
      · by_cases he : eligB repo p
        · exfalso
          have := Hrank x p hp
          omega
        · simp [he]
    rw [upChainC_stop repo rank hpex] at hc ⊢
    simp at hc
    subst hc
    exfalso
    unfold peB at hpex
    rw [hcu] at hpex
    simp only [] at hpex
    rw [hu] at hpex
    exact Bool.noConfusion hpex
  | succ m ih =>
    intro x c u hn hc hcu hu
    by_cases hpex : peB repo x = false
    · rw [upChainC_stop repo rank hpex] at hc ⊢
      simp at hc
      subst hc
      exfalso
      unfold peB at hpex
      rw [hcu] at hpex
      simp only [] at hpex
      rw [hu] at hpex
      exact Bool.noConfusion hpex
    · unfold peB at hpex
      rcases hp : repo.parent x with _ | p
      · rw [hp] at hpex
        simp at hpex
      · rw [hp] at hpex
        simp only [] at hpex
        have he : eligB repo p = true := by
          rcases hb : eligB repo p
          · rw [hb] at hpex; simp at hpex
          · rfl
        have hpr := Hrank x p hp
        rw [upChainC_cont repo rank Hrank hp he] at hc ⊢
        rcases List.mem_cons.mp hc with rfl | hc2
        · have hup : u = p := by
            rw [hp] at hcu
            exact (Option.some.inj hcu).symm
          subst hup
          exact List.mem_cons_of_mem _ (upChain_head repo _ u)
        · exact List.mem_cons_of_mem _ (ih p c u (by omega) hc2 hcu hu)

/-- If a chain from a tracked branch contains `u` strictly above its
start, it passes through a child of `u`. -/
theorem chain_mem_child
    (Hrank : ∀ b p, repo.parent b = some p → rank p < rank b) :
    ∀ n x u, rank x ≤ n → x ∈ repo.branches → u ∈ upChainC repo rank x →
      u ≠ x → ∃ c ∈ childrenOf repo u, c ∈ upChainC repo rank x := by
  intro n
  induction n with
  | zero =>
    intro x u hn hx hu hne
    have hpex : peB repo x = false := by
      unfold peB
      rcases hp : repo.parent x with _ | p
      · rfl
      · by_cases he : eligB repo p
        · exfalso
          have := Hrank x p hp
          omega
        · simp [he]
    rw [upChainC_stop repo rank hpex] at hu
    simp at hu
    exact absurd hu hne
  | succ m ih =>
    intro x u hn hx hu hne
    by_cases hpex : peB repo x = false
    · rw [upChainC_stop repo rank hpex] at hu
      simp at hu
      exact absurd hu hne
    · unfold peB at hpex
      rcases hp : repo.parent x with _ | p
      · rw [hp] at hpex
        simp at hpex
      · rw [hp] at hpex
        simp only [] at hpex
        have he : eligB repo p = true := by
          rcases hb : eligB repo p
          · rw [hb] at hpex; simp at hpex
          · rfl
        have hpr := Hrank x p hp
        rw [upChainC_cont repo rank Hrank hp he] at hu ⊢
        rcases List.mem_cons.mp hu with rfl | hu2
        · exact absurd rfl hne
        · by_cases hup : u = p
          · subst hup
            refine ⟨x, ?_, by simp⟩
            rw [childrenOf_mem]
            exact ⟨hx, hp⟩
          · have hpb : p ∈ repo.branches :=
              (of_decide_eq_true he).1
            obtain ⟨c, hc1, hc2⟩ :=
              ih p u (by omega) hpb hu2 (by exact hup)
            exact ⟨c, hc1, List.mem_cons_of_mem _ hc2⟩

/-- At most one child of `u` lies on a given chain. -/
theorem chain_child_unique
    (Hrank : ∀ b p, repo.parent b = some p → rank p < rank b) :
    ∀ n x u c1 c2, rank x ≤ n →
      c1 ∈ childrenOf repo u → c2 ∈ childrenOf repo u →
      c1 ∈ upChainC repo rank x → c2 ∈ upChainC repo rank x →
      c1 = c2 := by
  intro n
  induction n with
  | zero =>
    intro x u c1 c2 hn hc1 hc2 hm1 hm2
    have hpex : peB repo x = false := by
      unfold peB
      rcases hp : repo.parent x with _ | p
      · rfl
      · by_cases he : eligB repo p
        · exfalso
          have := Hrank x p hp
          omega
        · simp [he]
    rw [upChainC_stop repo rank hpex] at hm1 hm2
    simp at hm1 hm2
    rw [hm1, hm2]
  | succ m ih =>
    intro x u c1 c2 hn hc1 hc2 hm1 hm2
    by_cases hpex : peB repo x = false
    · rw [upChainC_stop repo rank hpex] at hm1 hm2
      simp at hm1 hm2
      rw [hm1, hm2]
    · unfold peB at hpex
      rcases hp : repo.parent x with _ | p
      · rw [hp] at hpex
        simp at hpex
      · rw [hp] at hpex
        simp only [] at hpex
        have he : eligB repo p = true := by
          rcases hb : eligB repo p
          · rw [hb] at hpex; simp at hpex
          · rfl
        have hpr := Hrank x p hp
        rw [upChainC_cont repo rank Hrank hp he] at hm1 hm2
        have hkill : ∀ c, c ∈ childrenOf repo u → c = x →
            ∀ c', c' ∈ childrenOf repo u → c' ∈ upChainC repo rank p →
            False := by
          intro c hc hcx c' hc' hm'
          subst hcx
          have hup : u = p := by
            rw [childrenOf_mem] at hc
            rw [hc.2] at hp
            exact Option.some.inj hp
          subst hup
          have hle : rank c' ≤ rank u :=
            upChain_rank_le repo rank Hrank _ u c' hm'
          rw [childrenOf_mem] at hc'
          have := Hrank c' u hc'.2
          omega
        rcases List.mem_cons.mp hm1 with rfl | hm1b
        · rcases List.mem_cons.mp hm2 with rfl | hm2b
          · rfl
          · exact absurd (hkill c1 hc1 rfl c2 hc2 hm2b) (by simp)
        · rcases List.mem_cons.mp hm2 with rfl | hm2b
          · exact absurd (hkill c2 hc2 rfl c1 hc1 hm1b) (by simp)
          · exact ih p u c1 c2 (by omega) hc1 hc2 hm1b hm2b

end ChainStructure

/-- Sum of an indicator over a duplicate-free list with at most one
satisfying element. -/
theorem sum_indicator_unique (P : String → Prop) [DecidablePred P] :
    ∀ l : List String, l.Nodup →
      (∀ a ∈ l, ∀ b ∈ l, P a → P b → a = b) →
      (l.map fun c => if P c then 1 else 0).sum =
        if ∃ a ∈ l, P a then 1 else 0 := by
  intro l
  induction l with
  | nil => simp
  | cons a t ih =>
    intro hnd huniq
    have hndt : t.Nodup := (List.nodup_cons.mp hnd).2
    have hat : a ∉ t := (List.nodup_cons.mp hnd).1
    simp only [List.map_cons, List.sum_cons]
    by_cases hpa : P a
    · have hzero : (t.map fun c => if P c then 1 else 0).sum = 0 := by
        apply List.sum_eq_zero
        intro v hv
        simp only [List.mem_map] at hv
        obtain ⟨c, hc, rfl⟩ := hv
        by_cases hpc : P c
        · exfalso
          have := huniq a (by simp) c (by simp [hc]) hpa hpc
          rw [← this] at hc
          exact hat hc
        · simp [hpc]
      rw [hzero, if_pos hpa]
      have : ∃ b ∈ a :: t, P b := ⟨a, by simp, hpa⟩
      rw [if_pos this]
    · rw [if_neg hpa]
      have hrec := ih hndt (fun u hu v hv => huniq u (by simp [hu]) v
        (by simp [hv]))
      rw [hrec]
      have hiff : (∃ b ∈ t, P b) ↔ (∃ b ∈ a :: t, P b) := by
        constructor
        · rintro ⟨b, hb, hpb⟩
          exact ⟨b, by simp [hb], hpb⟩
        · rintro ⟨b, hb, hpb⟩
          rcases List.mem_cons.mp hb with rfl | hbt
          · exact absurd hpb hpa
          · exact ⟨b, hbt, hpb⟩
      rw [if_congr hiff rfl rfl]
      omega

section CountLemmas

variable (repo : Repo) (rank : String → Nat)

/-- Every node of a stack built from an eligible base is eligible. -/
theorem stackNodes_elig
    (Htrunk : repo.parent repo.trunk = none)
    (Hign : ∀ i ∈ repo.ignored, repo.parent i = none) :
    ∀ f u y, elig repo u → y ∈ stackNodes repo f u → elig repo y := by
  intro f
  induction f with
  | zero =>
    intro u y hu hy
    simp [stackNodes] at hy
    subst hy
    exact hu
  | succ m ih =>
    intro u y hu hy
    rw [stackNodes] at hy
    rcases List.mem_cons.mp hy with rfl | hy2
    · exact hu
    · simp only [List.mem_flatMap] at hy2
      obtain ⟨c, hc, hyc⟩ := hy2
      exact ih c y (childrenOf_elig repo Hign Htrunk hc) hyc

/-- Count of a branch in a stack built from an eligible base: one if
the base lies on the branch's upward chain, zero otherwise. -/
theorem stackNodes_count
    (Hnodup : repo.branches.Nodup)
    (Hrank : ∀ b p, repo.parent b = some p → rank p < rank b)
    (Htrunk : repo.parent repo.trunk = none)
    (Hign : ∀ i ∈ repo.ignored, repo.parent i = none) :
    ∀ f u x, elig repo u → elig repo x →
      (∀ y ∈ repo.branches, rank y < rank u + f) →
      (stackNodes repo f u).count x =
        if u ∈ upChainC repo rank x then 1 else 0 := by
  intro f
  induction f with
  | zero =>
    intro u x hu hx hroom
    exfalso
    have := hroom u hu.1
    omega
  | succ m ih =>
    intro u x hu hx hroom
    rw [stackNodes, List.count_cons, List.count_flatMap]
    have hmap : List.map (List.count x ∘ stackNodes repo m)
        (childrenOf repo u) =
        List.map (fun c => if c ∈ upChainC repo rank x then 1 else 0)
          (childrenOf repo u) := by
      apply List.map_congr_left
      intro c hc
      have hcel : elig repo c := childrenOf_elig repo Hign Htrunk hc
      have hrc : rank u < rank c :=
        Hrank c u ((childrenOf_mem repo u c).mp hc).2
      have hroom2 : ∀ y ∈ repo.branches, rank y < rank c + m := by
        intro y hy
        have := hroom y hy
        omega
      simpa using ih c x hcel hx hroom2
    rw [hmap]
    have hcnodup : (childrenOf repo u).Nodup := Hnodup.filter _
    rw [sum_indicator_unique _ (childrenOf repo u) hcnodup
      (fun a ha b hb hpa hpb =>
        chain_child_unique repo rank Hrank (rank x) x u a b (le_refl _)
          ha hb hpa hpb)]
    by_cases hxu : u = x
    · subst hxu
      have hmem : u ∈ upChainC repo rank u := upChain_head repo _ u
      rw [if_pos hmem]
      have hno : ¬∃ c ∈ childrenOf repo u, c ∈ upChainC repo rank u := by
        rintro ⟨c, hc, hcc⟩
        have hle : rank c ≤ rank u :=
          upChain_rank_le repo rank Hrank _ u c hcc
        have := Hrank c u ((childrenOf_mem repo u c).mp hc).2
        omega
      rw [if_neg hno]
      simp
    · have hbeq : (u == x) = false := by
        simp [hxu]
      rw [hbeq]
      simp only [Bool.false_eq_true, if_false, Nat.add_zero]
      by_cases hu_mem : u ∈ upChainC repo rank x
      · rw [if_pos hu_mem]
        have hex : ∃ c ∈ childrenOf repo u, c ∈ upChainC repo rank x :=
          chain_mem_child repo rank Hrank (rank x) x u (le_refl _)
            hx.1 hu_mem (by exact hxu)
        rw [if_pos hex]
      · rw [if_neg hu_mem]
        have hnex : ¬∃ c ∈ childrenOf repo u, c ∈ upChainC repo rank x := by
          rintro ⟨c, hc, hcc⟩
          have hcu : repo.parent c = some u :=
            ((childrenOf_mem repo u c).mp hc).2
          have heu : eligB repo u = true := decide_eq_true hu
          exact hu_mem (chain_mem_parent repo rank Hrank (rank x) x c u
            (le_refl _) hcc hcu heu)
        rw [if_neg hnex]

end CountLemmas

theorem filterElig_mem (repo : Repo) (b : String) :
    b ∈ repo.branches.filter
      (fun b => !repo.ignored.contains b && b != repo.trunk) ↔
    elig repo b := by
  simp only [List.mem_filter, elig, Bool.and_eq_true, Bool.not_eq_true',
    bne_iff_ne, ne_eq]
  constructor
  · rintro ⟨h1, h2, h3⟩
    refine ⟨h1, ?_, h3⟩
    intro hmem
    have h4 : repo.ignored.contains b = true := List.elem_iff.mpr hmem
    rw [h4] at h2
    exact Bool.noConfusion h2
  · rintro ⟨h1, h2, h3⟩
    refine ⟨h1, ?_, h3⟩
    rcases hc : repo.ignored.contains b
    · rfl
    · exact absurd (List.elem_iff.mp hc) h2

section Assembly

variable (repo : Repo) (rank : String → Nat) (N : Nat)

theorem mem_bases
    (Hrank : ∀ b p, repo.parent b = some p → rank p < rank b)
    (HN : ∀ b ∈ repo.branches, rank b < N) (u : String) :
    u ∈ allStackBaseNames repo N ↔
      ∃ b, elig repo b ∧ u = baseC repo rank b := by
  unfold allStackBaseNames
  rw [jsSetDedup_mem]
  simp only [List.mem_map]
  constructor
  · rintro ⟨b, hbf, rfl⟩
    have hbe : elig repo b := (filterElig_mem repo b).mp hbf
    refine ⟨b, hbe, ?_⟩
    unfold baseC
    exact base_stable repo rank Hrank (rank b) b N (rank b + 1)
      (le_refl _) (HN b hbe.1) (by omega)
  · rintro ⟨b, hbe, rfl⟩
    refine ⟨b, (filterElig_mem repo b).mpr hbe, ?_⟩
    unfold baseC
    exact base_stable repo rank Hrank (rank b) b N (rank b + 1)
      (le_refl _) (HN b hbe.1) (by omega)

/-- C6: `allStacksFromTrunk` partitions the tracked, non-ignored,
non-trunk branches: the deduplicated base list has no duplicates and
every eligible branch occurs exactly once across all returned stacks
(and ineligible names occur zero times).  The acyclicity of the parent
forest is expressed by the measure `rank`, decreasing from child to
parent, and `N` is fuel exceeding every branch's rank. -/
theorem c6_allStacksFromTrunk_partition
    (Hnodup : repo.branches.Nodup)
    (Hrank : ∀ b p, repo.parent b = some p → rank p < rank b)
    (HN : ∀ b ∈ repo.branches, rank b < N)
    (Htrunk : repo.parent repo.trunk = none)
    (Hign : ∀ i ∈ repo.ignored, repo.parent i = none) :
    (allStackBaseNames repo N).Nodup ∧
    ∀ x, (allStacksFromTrunk repo N).flatten.count x =
      if elig repo x then 1 else 0 := by
  have hbase_elig : ∀ u ∈ allStackBaseNames repo N, elig repo u := by
    intro u hu
    obtain ⟨b, hbe, rfl⟩ := (mem_bases repo rank N Hrank HN u).mp hu
    have hmem := (baseC_spec repo rank Hrank (rank b) b (le_refl _)).1
    exact upChain_elig repo _ b _ hbe hmem
  have hbase_stop : ∀ u ∈ allStackBaseNames repo N, peB repo u = false := by
    intro u hu
    obtain ⟨b, hbe, rfl⟩ := (mem_bases repo rank N Hrank HN u).mp hu
    exact (baseC_spec repo rank Hrank (rank b) b (le_refl _)).2
  refine ⟨jsSetDedup_nodup _, ?_⟩
  intro x
  unfold allStacksFromTrunk
  rw [List.count_flatten, List.map_map]
  by_cases hx : elig repo x
  · rw [if_pos hx]
    have hmap : List.map (List.count x ∘ stackNodes repo N)
        (allStackBaseNames repo N) =
        List.map (fun u => if u ∈ upChainC repo rank x then 1 else 0)
          (allStackBaseNames repo N) := by
      apply List.map_congr_left
      intro u hu
      have hue : elig repo u := hbase_elig u hu
      have hroom : ∀ y ∈ repo.branches, rank y < rank u + N := by
        intro y hy
        have := HN y hy
        omega
      simpa using stackNodes_count repo rank Hnodup Hrank Htrunk Hign
        N u x hue hx hroom
    rw [hmap]
    rw [sum_indicator_unique _ (allStackBaseNames repo N)
      (jsSetDedup_nodup _)
      (fun u1 hu1 u2 hu2 hp1 hp2 => by
        have e1 : u1 = baseC repo rank x :=
          chain_stop_eq_base repo rank Hrank (rank x) x u1 (le_refl _)
            hp1 (hbase_stop u1 hu1)
        have e2 : u2 = baseC repo rank x :=
          chain_stop_eq_base repo rank Hrank (rank x) x u2 (le_refl _)
            hp2 (hbase_stop u2 hu2)
        rw [e1, e2])]
    have hexists : ∃ u ∈ allStackBaseNames repo N,
        u ∈ upChainC repo rank x := by
      refine ⟨baseC repo rank x, ?_, ?_⟩
      · exact (mem_bases repo rank N Hrank HN _).mpr ⟨x, hx, rfl⟩
      · exact (baseC_spec repo rank Hrank (rank x) x (le_refl _)).1
    rw [if_pos hexists]
  · rw [if_neg hx]
    apply List.sum_eq_zero
    intro v hv
    simp only [List.mem_map, Function.comp] at hv
    obtain ⟨u, hu, rfl⟩ := hv
    rw [List.count_eq_zero]
    intro hmem
    exact hx (stackNodes_elig repo Htrunk Hign N u x
      (hbase_elig u hu) hmem)

end Assembly

/-- A concrete repository for the C6 witness: two stacks (a with child
b, and c) below trunk `main`, plus one ignored root `skip`. -/
def exRepo : Repo :=
  { branches := ["main", "a", "b", "c", "skip"], trunk := "main",
    ignored := ["skip"],
    parent := fun s =>
      if s = "a" then some "main"
      else if s = "b" then some "a"
      else if s = "c" then some "main"
      else none }

/-- Acyclicity measure for `exRepo`. -/
def exRank : String → Nat := fun s =>
  if s = "b" then 2 else if s = "a" then 1 else if s = "c" then 1 else 0

/-- C6 witness: the partition theorem applies to the concrete
repository, whose hypotheses are discharged by computation. -/
theorem c6_allStacksFromTrunk_partition_witness :
    ((allStackBaseNames exRepo 3).Nodup ∧
      ∀ x, (allStacksFromTrunk exRepo 3).flatten.count x =
        if elig exRepo x then 1 else 0) :=
  c6_allStacksFromTrunk_partition exRepo exRank 3
    (by decide)
    (by
      intro b p h
      simp only [exRepo] at h
      split_ifs at h with h1 h2 h3 <;>
        first
          | exact Option.noConfusion h
          | (cases h
             subst_vars
             decide))
    (by decide)
    (by decide)
    (by decide)
